import Mathlib

/-!
Verification of the kilo text editor core (src/kilo.c): row data model with
raw/rendered duality, the cursor-to-render coordinate mapping, edit
operations and dirty tracking, the scrolling viewport controller, file
load/save round-tripping, the escape-sequence key decoder, the prompt loop
and the incremental wraparound search engine.

Lines are modelled as `List Char` (the C code treats them as byte
sequences; only ASCII bytes matter to the algorithms verified here), the
global `struct editorConfig E` as an explicit `EditorState` record, and
every C function is translated statement-by-statement into a pure Lean
function of the same name.
-/

/-- KILO_TAB_STOP from kilo.c. -/
def KILO_TAB_STOP : Nat := 8

/-- BACKSPACE key code (kilo.c `enum editorKey`). -/
def BACKSPACE : Nat := 127

/-- ARROW_LEFT key code. -/
def ARROW_LEFT : Nat := 1000

/-- ARROW_RIGHT key code. -/
def ARROW_RIGHT : Nat := 1001

/-- ARROW_UP key code. -/
def ARROW_UP : Nat := 1002

/-- ARROW_DOWN key code. -/
def ARROW_DOWN : Nat := 1003

/-- DEL_KEY key code. -/
def DEL_KEY : Nat := 1004

/-- HOME_KEY key code. -/
def HOME_KEY : Nat := 1005

/-- END_KEY key code. -/
def END_KEY : Nat := 1006

/-- PAGE_UP key code. -/
def PAGE_UP : Nat := 1007

/-- PAGE_DOWN key code. -/
def PAGE_DOWN : Nat := 1008

/-- Loop body of `editorRowCxToRx` (kilo.c:216-226): the accumulator `rx`
is advanced over the given raw characters; a tab does
`rx += (KILO_TAB_STOP - 1) - (rx % KILO_TAB_STOP); rx++;`, any other
character does `rx++`. -/
def cxToRxGo : List Char → Nat → Nat
  | [], rx => rx
  | c :: cs, rx =>
    cxToRxGo cs
      (if c = '\t' then rx + ((KILO_TAB_STOP - 1) - rx % KILO_TAB_STOP) + 1 else rx + 1)

/-- editorRowCxToRx (kilo.c:216-226): scan the raw bytes `[0, cx)` of the
row, accumulating the rendered column. -/
def editorRowCxToRx (chars : List Char) (cx : Nat) : Nat :=
  cxToRxGo (chars.take cx) 0

/-- Loop body of `editorRowRxToCx` (kilo.c:228-239): walk the whole row
advancing `cur_rx` exactly as `editorRowCxToRx` does, returning the raw
index `cx` as soon as `cur_rx` passes the target `rx`
(`if (cur_rx > rx) return cx;`), and the row size if it never does. -/
def rxToCxGo (rx : Nat) : List Char → Nat → Nat → Nat
  | [], _, cx => cx
  | c :: cs, cur, cx =>
    let cur' := if c = '\t' then cur + ((KILO_TAB_STOP - 1) - cur % KILO_TAB_STOP) + 1 else cur + 1
    if rx < cur' then cx else rxToCxGo rx cs cur' (cx + 1)

/-- editorRowRxToCx (kilo.c:228-239). -/
def editorRowRxToCx (chars : List Char) (rx : Nat) : Nat :=
  rxToCxGo rx chars 0 0

/-- Loop body of `editorUpdateRow` (kilo.c:241-265): a tab at rendered
index `idx` emits one space and then spaces until `idx` is a multiple of
`KILO_TAB_STOP` (in total `KILO_TAB_STOP - idx % KILO_TAB_STOP` spaces);
any other character is copied. -/
def renderGo : List Char → Nat → List Char
  | [], _ => []
  | c :: cs, idx =>
    if c = '\t' then
      let pad := KILO_TAB_STOP - idx % KILO_TAB_STOP
      List.replicate pad ' ' ++ renderGo cs (idx + pad)
    else
      c :: renderGo cs (idx + 1)

/-- editorUpdateRow (kilo.c:241-265), as the pure function from a row's raw
characters to its rendered characters. -/
def editorUpdateRow (chars : List Char) : List Char :=
  renderGo chars 0

/-- Modelled from the spec (§4.2 `rowToRender`): scan raw bytes `[0, cx)`;
for each tab byte advance the accumulator to the next multiple of the
tab-stop width (first to one short of it, then by one more); for any other
byte advance by one. Stated with explicit next-multiple arithmetic, to be
compared against the source translation `editorRowCxToRx`. -/
def rowToRenderSpec (chars : List Char) (cx : Nat) : Nat :=
  (chars.take cx).foldl
    (fun acc c => if c = '\t' then (acc / KILO_TAB_STOP + 1) * KILO_TAB_STOP else acc + 1) 0

/-- The global editor state `struct editorConfig E` (kilo.c:56-75).
Each row stores only its raw characters; the rendered form is the pure
function `editorUpdateRow` of them, which the C code keeps as a cache that
it recomputes after every mutation. `numrows` is `rows.length`. -/
structure EditorState where
  cx : Nat
  cy : Nat
  rx : Nat
  rowoff : Nat
  coloff : Nat
  screenrows : Nat
  screencols : Nat
  rows : List (List Char)
  dirty : Nat
deriving DecidableEq, Repr

/-- editorInsertRow (kilo.c:267-295): guarded insertion of a new row at
index `i`, shifting later rows; increments `dirty`. -/
def editorInsertRow (E : EditorState) (i : Nat) (s : List Char) : EditorState :=
  if i > E.rows.length then E
  else { E with rows := E.rows.take i ++ s :: E.rows.drop i, dirty := E.dirty + 1 }

/-- editorDelRow (kilo.c:302-308): guarded removal of the row at `i`;
increments `dirty`. -/
def editorDelRow (E : EditorState) (i : Nat) : EditorState :=
  if i ≥ E.rows.length then E
  else { E with rows := E.rows.eraseIdx i, dirty := E.dirty + 1 }

/-- editorRowInsertChar (kilo.c:310-318) acting on the row at index `i` of
the state: an out-of-range insert position is clamped to the row end
(`if (at < 0 || at > row->size) at = row->size;`); increments `dirty`. -/
def editorRowInsertChar (E : EditorState) (i : Nat) (j : Nat) (c : Char) : EditorState :=
  let row := E.rows.getD i []
  let j' := if j > row.length then row.length else j
  { E with rows := E.rows.set i (row.take j' ++ c :: row.drop j'), dirty := E.dirty + 1 }

/-- editorRowAppendString (kilo.c:320-327) acting on the row at index `i`;
increments `dirty`. -/
def editorRowAppendString (E : EditorState) (i : Nat) (s : List Char) : EditorState :=
  { E with rows := E.rows.set i (E.rows.getD i [] ++ s), dirty := E.dirty + 1 }

/-- editorRowDelChar (kilo.c:329-335) acting on the row at index `i`: a
no-op when `j` is out of range (`if (at < 0 || at >= row->size) return;`),
otherwise removes the character at `j` and increments `dirty`. -/
def editorRowDelChar (E : EditorState) (i : Nat) (j : Nat) : EditorState :=
  let row := E.rows.getD i []
  if j ≥ row.length then E
  else { E with rows := E.rows.set i (row.take j ++ row.drop (j + 1)), dirty := E.dirty + 1 }

/-- editorInsertChar (kilo.c:339-345): when the cursor sits on the virtual
line past the end, first append an empty row; then insert the character at
the cursor and advance `cx`. -/
def editorInsertChar (E : EditorState) (c : Char) : EditorState :=
  let E1 := if E.cy = E.rows.length then editorInsertRow E E.rows.length [] else E
  let E2 := editorRowInsertChar E1 E1.cy E1.cx c
  { E2 with cx := E2.cx + 1 }

/-- editorInsertNewline (kilo.c:347-360): at column 0 insert an empty row
before the current one; otherwise split the current row at `cx` (tail
becomes a new row at `cy + 1`, the current row is truncated to `cx`).
Cursor moves to the start of the next row. -/
def editorInsertNewline (E : EditorState) : EditorState :=
  if E.cx = 0 then
    let E1 := editorInsertRow E E.cy []
    { E1 with cy := E1.cy + 1, cx := 0 }
  else
    let row := E.rows.getD E.cy []
    let E1 := editorInsertRow E (E.cy + 1) (row.drop E.cx)
    let E2 := { E1 with rows := E1.rows.set E.cy ((E1.rows.getD E.cy []).take E.cx) }
    { E2 with cy := E2.cy + 1, cx := 0 }

/-- editorDelChar (kilo.c:362-377): no-op past the end of the document or
at its very start; in-line deletion when `cx > 0`; otherwise join the
current row onto the previous one (the cursor column is set to the
previous row's length before the append, as in the C code). -/
def editorDelChar (E : EditorState) : EditorState :=
  if E.cy = E.rows.length then E
  else if E.cx = 0 ∧ E.cy = 0 then E
  else
    let row := E.rows.getD E.cy []
    if E.cx > 0 then
      let E1 := editorRowDelChar E E.cy (E.cx - 1)
      { E1 with cx := E.cx - 1 }
    else
      let E1 := { E with cx := (E.rows.getD (E.cy - 1) []).length }
      let E2 := editorRowAppendString E1 (E.cy - 1) row
      let E3 := editorDelRow E2 E.cy
      { E3 with cy := E.cy - 1 }

/-- editorScroll (kilo.c:540-559): recompute `rx` from the cursor, then
clamp `rowoff` and `coloff` so the cursor is inside the visible frame.
The four clamps run in the C statement order. -/
def editorScroll (E : EditorState) : EditorState :=
  let rx := if E.cy < E.rows.length then editorRowCxToRx (E.rows.getD E.cy []) E.cx else 0
  let rowoff1 := if E.cy < E.rowoff then E.cy else E.rowoff
  let rowoff2 := if E.cy ≥ rowoff1 + E.screenrows then E.cy - E.screenrows + 1 else rowoff1
  let coloff1 := if rx < E.coloff then rx else E.coloff
  let coloff2 := if rx ≥ coloff1 + E.screencols then rx - E.screencols + 1 else coloff1
  { E with rx := rx, rowoff := rowoff2, coloff := coloff2 }

/-- editorMoveCursor (kilo.c:719-756): arrow-key cursor movement followed
by the end-of-line snap (`if (E.cx > rowlen) E.cx = rowlen;`). -/
def editorMoveCursor (E : EditorState) (key : Nat) : EditorState :=
  let E1 :=
    if key = ARROW_LEFT then
      if E.cx ≠ 0 then { E with cx := E.cx - 1 }
      else if 0 < E.cy then { E with cy := E.cy - 1, cx := (E.rows.getD (E.cy - 1) []).length }
      else E
    else if key = ARROW_RIGHT then
      if E.cy < E.rows.length then
        if E.cx < (E.rows.getD E.cy []).length then { E with cx := E.cx + 1 }
        else if E.cx = (E.rows.getD E.cy []).length then { E with cy := E.cy + 1, cx := 0 }
        else E
      else E
    else if key = ARROW_UP then
      if E.cy ≠ 0 then { E with cy := E.cy - 1 } else E
    else if key = ARROW_DOWN then
      if E.cy < E.rows.length then { E with cy := E.cy + 1 } else E
    else E
  let rowlen := if E1.cy < E1.rows.length then (E1.rows.getD E1.cy []).length else 0
  if rowlen < E1.cx then { E1 with cx := rowlen } else E1

/-- Predicate for the trailing bytes stripped by editorOpen's load loop
(kilo.c:413-415): line feed or carriage return. -/
def isNLCR (c : Char) : Bool := c == '\n' || c == '\r'

/-- Trailing-byte strip of editorOpen (kilo.c:413-415):
`while (linelen > 0 && (line[linelen-1] == '\n' || line[linelen-1] == '\r')) linelen--;`. -/
def stripTrailingNLCR (l : List Char) : List Char :=
  List.rdropWhile isNLCR l

/-- The sequence of lines produced by repeated `getline` calls
(kilo.c:412): each returned chunk extends up to and including the next
line feed; a final chunk without a line feed is still returned; nothing is
returned at end of input. -/
def getlineSplit : List Char → List (List Char)
  | [] => []
  | c :: rest =>
    if c = '\n' then ['\n'] :: getlineSplit rest
    else
      match getlineSplit rest with
      | [] => [[c]]
      | l :: ls => (c :: l) :: ls

/-- editorOpen (kilo.c:402-421), restricted to its pure content: the rows
loaded from a file's bytes — each getline chunk with trailing line
feeds/carriage returns stripped. -/
def editorOpenRows (s : List Char) : List (List Char) :=
  (getlineSplit s).map stripTrailingNLCR

/-- editorRowsToString (kilo.c:382-399): every row's raw bytes followed by
one line feed, the last row included. -/
def editorRowsToString : List (List Char) → List Char
  | [] => []
  | r :: rs => r ++ '\n' :: editorRowsToString rs

/-- editorOpen (kilo.c:402-421) as a state builder: the freshly
initialized editor (initEditor, kilo.c:836-851) with the given screen
size, populated from the file bytes, `dirty` reset to 0 at the end. -/
def editorOpenState (sr sc : Nat) (s : List Char) : EditorState :=
  { cx := 0, cy := 0, rx := 0, rowoff := 0, coloff := 0,
    screenrows := sr, screencols := sc, rows := editorOpenRows s, dirty := 0 }

/-- The successful path of editorSave (kilo.c:423-450): the bytes written
to disk and the state afterwards, with `dirty` reset to 0. -/
def editorSave (E : EditorState) : EditorState × List Char :=
  ({ E with dirty := 0 }, editorRowsToString E.rows)

/-- A carriage return immediately followed by a line feed occurs in the
byte sequence. -/
def containsCRLF : List Char → Bool
  | '\r' :: '\n' :: _ => true
  | _ :: rest => containsCRLF rest
  | [] => false

/-- The saved image the claim predicts: the input bytes with a line feed
appended when the (non-empty) input did not already end in one. -/
def ensureTrailingNL (s : List Char) : List Char :=
  if s = [] then [] else if s.getLast? = some '\n' then s else s ++ ['\n']

/-- editorReadKey (kilo.c:131-179): decode one logical key. `c` is the
first byte delivered by `read` (the C code retries until one arrives) and
`pending` models the bytes still available to the follow-up reads of an
escape sequence; a short `pending` models those reads timing out. -/
def editorReadKey (c : Nat) (pending : List Nat) : Nat :=
  if c = 27 then
    match pending with
    | [] => 27
    | [_] => 27
    | s0 :: s1 :: rest =>
      if s0 = 91 then
        if 48 ≤ s1 ∧ s1 ≤ 57 then
          match rest with
          | [] => 27
          | s2 :: _ =>
            if s2 = 126 then
              if s1 = 49 then HOME_KEY
              else if s1 = 51 then DEL_KEY
              else if s1 = 52 then END_KEY
              else if s1 = 53 then PAGE_UP
              else if s1 = 54 then PAGE_DOWN
              else if s1 = 55 then HOME_KEY
              else if s1 = 56 then END_KEY
              else 27
            else 27
        else
          if s1 = 65 then ARROW_UP
          else if s1 = 66 then ARROW_DOWN
          else if s1 = 67 then ARROW_RIGHT
          else if s1 = 68 then ARROW_LEFT
          else if s1 = 72 then HOME_KEY
          else if s1 = 70 then END_KEY
          else 27
      else if s0 = 79 then
        if s1 = 72 then HOME_KEY
        else if s1 = 70 then END_KEY
        else 27
      else 27
  else c

/-- The escape-sequence tails that editorReadKey maps to a named key
(everything else must degrade to the escape byte 27). -/
def recognizedSeq : List Nat → Bool
  | s0 :: s1 :: rest =>
    if s0 = 91 then
      if 48 ≤ s1 ∧ s1 ≤ 57 then
        match rest with
        | s2 :: _ =>
          if s2 = 126 then
            s1 == 49 || s1 == 51 || s1 == 52 || s1 == 53 || s1 == 54 || s1 == 55 || s1 == 56
          else false
        | [] => false
      else
        s1 == 65 || s1 == 66 || s1 == 67 || s1 == 68 || s1 == 72 || s1 == 70
    else if s0 = 79 then s1 == 72 || s1 == 70
    else false
  | _ => false

/-- Whether `needle` matches at the head of `hay` (the per-position test
inside C's `strstr`). -/
def leadsWith : List Char → List Char → Bool
  | [], _ => true
  | _ :: _, [] => false
  | n :: ns, h :: hs => n == h && leadsWith ns hs

/-- strstr (used at kilo.c:482): offset of the first occurrence of
`needle` in `hay`, if any; the empty needle matches at offset 0. -/
def strstrOffset (hay needle : List Char) : Option Nat :=
  if leadsWith needle hay then some 0
  else
    match hay with
    | [] => none
    | _ :: t => (strstrOffset t needle).map (· + 1)

/-- The state of one search session: the `static int last_match` and
`static int direction` of editorFindCallback (kilo.c:455-456) together
with the editor state it mutates. -/
structure FindState where
  lm : Int
  dir : Int
  ed : EditorState
deriving DecidableEq, Repr

/-- The scan loop of editorFindCallback (kilo.c:474-490): up to `fuel`
(= numrows) steps from `current` by `dir` with wraparound over
`[0, numrows)`, testing each row's rendered text for the query and
returning the first hit's row index and rendered offset. -/
def findScan (query : List Char) (rows : List (List Char)) :
    Nat → Int → Int → Option (Nat × Nat)
  | 0, _, _ => none
  | fuel + 1, current, dir =>
    let c1 := current + dir
    let c2 := if c1 = -1 then (rows.length : Int) - 1
      else if c1 = (rows.length : Int) then 0 else c1
    let idx := c2.toNat
    match strstrOffset (editorUpdateRow (rows.getD idx [])) query with
    | some off => some (idx, off)
    | none => findScan query rows fuel c2 dir

/-- editorFindCallback (kilo.c:454-491): one keystroke of an incremental
search session. Enter resets the session state and returns; arrows set the
direction; any other key resets `last_match` and the direction; a scan
with no remembered match is forced forward; the first matching row moves
the cursor there (raw column via editorRowRxToCx on the match offset) and
forces `rowoff` to `numrows`. -/
def findCallbackStep (query : List Char) (key : Nat) (f : FindState) : FindState :=
  if key = 13 ∨ key = 10 then { f with lm := -1, dir := 1 }
  else
    let lm0 : Int :=
      if key = ARROW_RIGHT ∨ key = ARROW_DOWN ∨ key = ARROW_LEFT ∨ key = ARROW_UP then f.lm
      else -1
    let dir0 : Int :=
      if key = ARROW_RIGHT ∨ key = ARROW_DOWN then 1
      else if key = ARROW_LEFT ∨ key = ARROW_UP then -1
      else 1
    let dir1 : Int := if lm0 = -1 then 1 else dir0
    match findScan query f.ed.rows f.ed.rows.length lm0 dir1 with
    | some (idx, off) =>
      { lm := idx, dir := dir1,
        ed := { f.ed with cy := idx,
                          cx := editorRowRxToCx (f.ed.rows.getD idx []) off,
                          rowoff := f.ed.rows.length } }
    | none => { lm := lm0, dir := dir1, ed := f.ed }

/-- Outcome of one editorPrompt session. -/
inductive PromptResult where
  | committed (buf : List Char)
  | cancelled
  | pending
deriving DecidableEq, Repr

/-- editorPrompt (kilo.c:682-717) driven by a list of already-decoded
keys: each iteration first redraws (running editorScroll), then handles
one key — backspace-class keys shorten the buffer, escape cancels, Enter
commits a non-empty buffer, printable bytes below 128 are appended — and
invokes the callback after every keystroke. An exhausted key list leaves
the session `pending`. -/
def editorPrompt (cb : List Char → Nat → FindState → FindState) :
    List Nat → List Char → FindState → PromptResult × FindState
  | [], _, f => (PromptResult.pending, f)
  | k :: ks, buf, f =>
    let f1 : FindState := { f with ed := editorScroll f.ed }
    if k = DEL_KEY ∨ k = 8 ∨ k = BACKSPACE then
      editorPrompt cb ks buf.dropLast (cb buf.dropLast k f1)
    else if k = 27 then
      (PromptResult.cancelled, cb buf k f1)
    else if k = 13 then
      if buf ≠ [] then (PromptResult.committed buf, cb buf k f1)
      else editorPrompt cb ks buf (cb buf k f1)
    else
      if ¬(k < 32 ∨ k = 127) ∧ k < 128 then
        editorPrompt cb ks (buf ++ [Char.ofNat k]) (cb (buf ++ [Char.ofNat k]) k f1)
      else
        editorPrompt cb ks buf (cb buf k f1)

/-- editorFind (kilo.c:493-509): save the cursor and viewport, run the
prompt with the search callback on a fresh session state, and restore the
saved positions when the session was cancelled. -/
def editorFind (keys : List Nat) (E : EditorState) : EditorState :=
  let r := editorPrompt findCallbackStep keys [] ⟨-1, 1, E⟩
  match r.1 with
  | PromptResult.cancelled =>
    { r.2.ed with cx := E.cx, cy := E.cy, coloff := E.coloff, rowoff := E.rowoff }
  | _ => r.2.ed

/-- The three-line document of the spec's search scenario, cursor at
`(cy = 2, cx = 0)`. -/
def searchDemoState : EditorState :=
  { cx := 0, cy := 2, rx := 0, rowoff := 0, coloff := 0,
    screenrows := 24, screencols := 80,
    rows := [['a', 'b', 'c'],
             ['t', 'a', 'b', '\t', 's', 't', 'o', 'p'],
             ['x', 'y', 'z']],
    dirty := 0 }

theorem cxToRxGo_step_gt (c : Char) (rx : Nat) :
    rx < (if c = '\t' then rx + ((KILO_TAB_STOP - 1) - rx % KILO_TAB_STOP) + 1 else rx + 1) := by
  split <;> omega

theorem cxToRxGo_le (cs : List Char) (rx : Nat) : rx ≤ cxToRxGo cs rx := by
  induction cs generalizing rx with
  | nil => simp [cxToRxGo]
  | cons c cs ih =>
    have h := cxToRxGo_step_gt c rx
    calc rx ≤ (if c = '\t' then rx + ((KILO_TAB_STOP - 1) - rx % KILO_TAB_STOP) + 1 else rx + 1) :=
          Nat.le_of_lt h
      _ ≤ _ := ih _

theorem rxToCxGo_roundtrip (cs : List Char) (cx cur base : Nat) (h : cx ≤ cs.length) :
    rxToCxGo (cxToRxGo (cs.take cx) cur) cs cur base = base + cx := by
  induction cs generalizing cx cur base with
  | nil =>
    simp at h
    subst h
    simp [cxToRxGo, rxToCxGo]
  | cons c cs ih =>
    cases cx with
    | zero =>
      simp only [List.take_zero, cxToRxGo, rxToCxGo]
      rw [if_pos (cxToRxGo_step_gt c cur)]
      omega
    | succ n =>
      have hn : n ≤ cs.length := by simpa using h
      simp only [List.take_succ_cons, cxToRxGo, rxToCxGo]
      rw [if_neg (by exact Nat.not_lt.mpr (cxToRxGo_le _ _))]
      rw [ih n _ (base + 1) hn]
      omega

theorem rxToCxGo_cover (cs : List Char) (rx cur base : Nat) (h : cur ≤ rx) :
    ∃ k, rxToCxGo rx cs cur base = base + k ∧ k ≤ cs.length ∧
      cxToRxGo (cs.take k) cur ≤ rx ∧
      (k < cs.length → rx < cxToRxGo (cs.take (k + 1)) cur) := by
  induction cs generalizing cur base with
  | nil =>
    refine ⟨0, by simp [rxToCxGo], by simp, by simpa [cxToRxGo], by simp⟩
  | cons c cs ih =>
    by_cases hlt : rx < (if c = '\t' then cur + ((KILO_TAB_STOP - 1) - cur % KILO_TAB_STOP) + 1 else cur + 1)
    · refine ⟨0, ?_, by simp, by simpa [cxToRxGo], ?_⟩
      · simp only [rxToCxGo]
        rw [if_pos hlt]
        omega
      · intro _
        simpa [cxToRxGo] using hlt
    · have hle : (if c = '\t' then cur + ((KILO_TAB_STOP - 1) - cur % KILO_TAB_STOP) + 1 else cur + 1) ≤ rx :=
        Nat.not_lt.mp hlt
      obtain ⟨k, hk1, hk2, hk3, hk4⟩ := ih _ (base + 1) hle
      refine ⟨k + 1, ?_, by simpa using hk2, ?_, ?_⟩
      · simp only [rxToCxGo]
        rw [if_neg hlt]
        rw [hk1]
        omega
      · simpa [cxToRxGo] using hk3
      · intro hklen
        have : k < cs.length := by simpa using hklen
        simpa [cxToRxGo] using hk4 this

theorem rxToCxGo_full (cs : List Char) (rx cur base : Nat) (h : cxToRxGo cs cur ≤ rx) :
    rxToCxGo rx cs cur base = base + cs.length := by
  induction cs generalizing cur base with
  | nil => simp [rxToCxGo]
  | cons c cs ih =>
    simp only [cxToRxGo] at h
    have hle : (if c = '\t' then cur + ((KILO_TAB_STOP - 1) - cur % KILO_TAB_STOP) + 1 else cur + 1) ≤ rx :=
      le_trans (cxToRxGo_le _ _) h
    simp only [rxToCxGo]
    rw [if_neg (Nat.not_lt.mpr hle)]
    rw [ih _ (base + 1) h]
    simp
    omega

theorem renderGo_length (cs : List Char) (idx : Nat) :
    idx + (renderGo cs idx).length = cxToRxGo cs idx := by
  induction cs generalizing idx with
  | nil => simp [renderGo, cxToRxGo]
  | cons c cs ih =>
    by_cases hc : c = '\t'
    · have hm : idx % KILO_TAB_STOP < KILO_TAB_STOP := Nat.mod_lt _ (by decide)
      have harg : idx + (KILO_TAB_STOP - 1 - idx % KILO_TAB_STOP) + 1
          = idx + (KILO_TAB_STOP - idx % KILO_TAB_STOP) := by omega
      simp only [renderGo, cxToRxGo, if_pos hc, harg]
      rw [← ih (idx + (KILO_TAB_STOP - idx % KILO_TAB_STOP))]
      simp
      omega
    · simp only [renderGo, cxToRxGo, if_neg hc]
      rw [← ih (idx + 1)]
      simp
      omega

theorem cxToRxGo_eq_foldl (cs : List Char) (a : Nat) :
    cxToRxGo cs a = cs.foldl
      (fun acc c => if c = '\t' then (acc / KILO_TAB_STOP + 1) * KILO_TAB_STOP else acc + 1) a := by
  induction cs generalizing a with
  | nil => rfl
  | cons c cs ih =>
    simp only [cxToRxGo, List.foldl_cons]
    rw [ih]
    congr 1
    by_cases hc : c = '\t'
    · simp only [if_pos hc, KILO_TAB_STOP]
      omega
    · simp [hc]

/-- C5: for every line and every `cx` (the claim asks only for
`cx ≤ line.length`; the statement holds for all `cx`), `editorRowCxToRx`
scans the raw bytes `[0, cx)` and, for each tab byte, advances the
accumulator to the next multiple of the tab-stop width — one short of it
and then by one more — and for any other byte advances it by one; the
returned accumulator is `rx`. The right-hand side `rowToRenderSpec` is the
spec's wording with explicit next-multiple arithmetic. -/
theorem c5_rowToRender_scan (chars : List Char) (cx : Nat) :
    editorRowCxToRx chars cx = rowToRenderSpec chars cx :=
  cxToRxGo_eq_foldl _ 0

/-- C1: the coordinate mappings are exact inverses at raw positions
(`editorRowRxToCx (editorRowCxToRx cx) = cx` for every `cx ≤ length`), and
for an arbitrary rendered column `rx`, `editorRowRxToCx` lands on the raw
index whose tab expansion covers `rx` (its rendered start is `≤ rx` and
the next raw index starts past `rx`), returning the line length whenever
`rx` is at or past the fully expanded (rendered) length. -/
theorem c1_coordinate_roundtrip (chars : List Char) (cx rx : Nat) (hcx : cx ≤ chars.length) :
    editorRowRxToCx chars (editorRowCxToRx chars cx) = cx
    ∧ editorRowRxToCx chars rx ≤ chars.length
    ∧ editorRowCxToRx chars (editorRowRxToCx chars rx) ≤ rx
    ∧ (editorRowRxToCx chars rx < chars.length →
        rx < editorRowCxToRx chars (editorRowRxToCx chars rx + 1))
    ∧ ((editorUpdateRow chars).length ≤ rx → editorRowRxToCx chars rx = chars.length) := by
  obtain ⟨k, hk1, hk2, hk3, hk4⟩ := rxToCxGo_cover chars rx 0 0 (Nat.zero_le _)
  have hk1' : editorRowRxToCx chars rx = k := by
    simpa [editorRowRxToCx] using hk1
  refine ⟨?_, ?_, ?_, ?_, ?_⟩
  · have := rxToCxGo_roundtrip chars cx 0 0 hcx
    simpa [editorRowRxToCx, editorRowCxToRx] using this
  · omega
  · rw [hk1']
    simpa [editorRowCxToRx] using hk3
  · rw [hk1']
    intro hlt
    simpa [editorRowCxToRx] using hk4 hlt
  · intro hbig
    have hlen : (editorUpdateRow chars).length = cxToRxGo chars 0 := by
      have := renderGo_length chars 0
      simpa [editorUpdateRow] using this
    have := rxToCxGo_full chars rx 0 0 (by omega)
    simpa [editorRowRxToCx] using this

theorem c1_coordinate_roundtrip_witness :
    editorRowRxToCx ['a', '\t', 'b'] (editorRowCxToRx ['a', '\t', 'b'] 2) = 2
    ∧ editorRowCxToRx ['a', '\t', 'b'] (editorRowRxToCx ['a', '\t', 'b'] 9) ≤ 9 :=
  ⟨(c1_coordinate_roundtrip ['a', '\t', 'b'] 2 9 (by decide)).1,
   (c1_coordinate_roundtrip ['a', '\t', 'b'] 2 9 (by decide)).2.2.1⟩

/-- C2: after `editorScroll` runs (the first step of every redraw), the
viewport contains the cursor: `rowoff ≤ cy < rowoff + screenrows` and
`coloff ≤ rx < coloff + screencols`. This holds for every editor state
with a non-empty viewport — in particular for every reachable state,
including those left by the search engine's forced scroll
(`E.rowoff = E.numrows`). -/
theorem c2_viewport_contains_cursor (E : EditorState)
    (hr : 0 < E.screenrows) (hc : 0 < E.screencols) :
    (editorScroll E).rowoff ≤ (editorScroll E).cy
    ∧ (editorScroll E).cy < (editorScroll E).rowoff + (editorScroll E).screenrows
    ∧ (editorScroll E).coloff ≤ (editorScroll E).rx
    ∧ (editorScroll E).rx < (editorScroll E).coloff + (editorScroll E).screencols := by
  unfold editorScroll
  dsimp only
  split_ifs <;> simp_all <;> omega

theorem c2_viewport_contains_cursor_witness :
    (editorScroll ⟨0, 5, 0, 9, 7, 2, 3, [['a']], 0⟩).rowoff
        ≤ (editorScroll ⟨0, 5, 0, 9, 7, 2, 3, [['a']], 0⟩).cy
    ∧ (editorScroll ⟨0, 5, 0, 9, 7, 2, 3, [['a']], 0⟩).cy
        < (editorScroll ⟨0, 5, 0, 9, 7, 2, 3, [['a']], 0⟩).rowoff
          + (editorScroll ⟨0, 5, 0, 9, 7, 2, 3, [['a']], 0⟩).screenrows
    ∧ (editorScroll ⟨0, 5, 0, 9, 7, 2, 3, [['a']], 0⟩).coloff
        ≤ (editorScroll ⟨0, 5, 0, 9, 7, 2, 3, [['a']], 0⟩).rx
    ∧ (editorScroll ⟨0, 5, 0, 9, 7, 2, 3, [['a']], 0⟩).rx
        < (editorScroll ⟨0, 5, 0, 9, 7, 2, 3, [['a']], 0⟩).coloff
          + (editorScroll ⟨0, 5, 0, 9, 7, 2, 3, [['a']], 0⟩).screencols :=
  c2_viewport_contains_cursor ⟨0, 5, 0, 9, 7, 2, 3, [['a']], 0⟩ (by decide) (by decide)

theorem getlineSplit_ne_nil (s : List Char) (h : s ≠ []) : getlineSplit s ≠ [] := by
  cases s with
  | nil => exact absurd rfl h
  | cons c rest =>
    by_cases hc : c = '\n'
    · simp [getlineSplit, hc]
    · simp only [getlineSplit, if_neg hc]
      cases getlineSplit rest <;> simp

theorem stripTrailingNLCR_cons (c : Char) (l : List Char)
    (h : stripTrailingNLCR l ≠ [] ∨ isNLCR c = false) :
    stripTrailingNLCR (c :: l) = c :: stripTrailingNLCR l := by
  unfold stripTrailingNLCR List.rdropWhile at *
  rw [show (c :: l).reverse = l.reverse ++ [c] from by simp]
  rw [List.dropWhile_append]
  by_cases hd : List.dropWhile isNLCR l.reverse = []
  · have hc : isNLCR c = false := by
      rcases h with h | h
      · exact absurd (by simp [hd]) h
      · exact h
    simp [hd, List.dropWhile, hc]
  · simp [List.isEmpty_iff, hd]

theorem containsCRLF_cons (c : Char) (rest : List Char)
    (h : containsCRLF (c :: rest) = false) : containsCRLF rest = false := by
  cases rest with
  | nil => rfl
  | cons d t =>
    by_cases hc : c = '\r' <;> by_cases hd : d = '\n' <;>
      simp_all [containsCRLF]

theorem containsCRLF_allCR (m : List Char) (t : List Char)
    (hm : m ≠ []) (hall : ∀ x ∈ m, x = '\r') :
    containsCRLF (m ++ '\n' :: t) = true := by
  induction m with
  | nil => exact absurd rfl hm
  | cons x m ih =>
    have hx : x = '\r' := hall x (by simp)
    subst hx
    cases m with
    | nil => rfl
    | cons y m' =>
      have hy : y = '\r' := hall y (by simp)
      subst hy
      have := ih (by simp) (fun z hz => hall z (List.mem_cons_of_mem _ hz))
      simpa [containsCRLF] using this

theorem getlineSplit_head (s : List Char) (l : List Char) (ls : List (List Char))
    (h : getlineSplit s = l :: ls) :
    l ≠ [] ∧ (∃ t, s = l ++ t) ∧ (∀ x ∈ l.dropLast, x ≠ '\n')
    ∧ (l.getLast? = some '\n' ∨ (ls = [] ∧ l = s)) := by
  induction s generalizing l ls with
  | nil => simp [getlineSplit] at h
  | cons c rest ih =>
    by_cases hc : c = '\n'
    · subst hc
      simp only [getlineSplit, if_pos rfl] at h
      injection h with h1 h2
      subst h1
      subst h2
      refine ⟨by simp, ⟨rest, rfl⟩, by simp, Or.inl rfl⟩
    · simp only [getlineSplit, if_neg hc] at h
      cases hsplit : getlineSplit rest with
      | nil =>
        rw [hsplit] at h
        have hrest : rest = [] := by
          by_contra hne
          exact getlineSplit_ne_nil rest hne hsplit
        injection h with h1 h2
        subst h1
        subst h2
        subst hrest
        refine ⟨by simp, ⟨[], by simp⟩, by simp, Or.inr ⟨rfl, rfl⟩⟩
      | cons l' ls' =>
        rw [hsplit] at h
        injection h with h1 h2
        subst h1
        subst h2
        obtain ⟨hne, ⟨t, ht⟩, hdl, hdisj⟩ := ih l' ls' hsplit
        refine ⟨by simp, ⟨t, by simp [ht]⟩, ?_, ?_⟩
        · intro x hx
          cases l' with
          | nil => exact absurd rfl hne
          | cons a l'' =>
            rw [List.dropLast_cons₂] at hx
            rcases List.mem_cons.mp hx with rfl | hx
            · exact hc
            · exact hdl x hx
        · rcases hdisj with hlast | ⟨rfl, rfl⟩
          · left
            cases l' with
            | nil => exact absurd rfl hne
            | cons a l'' => simpa [List.getLast?_cons_cons] using hlast
          · exact Or.inr ⟨rfl, rfl⟩

/-- C4 (amended): loading a file and immediately saving it reproduces the
original bytes exactly — except that the saved output always ends with a
line feed even when the input did not — provided the input contains no
carriage return immediately before a line feed and does not end with a
carriage return (editorOpen strips such carriage returns and editorSave
does not write them back). -/
theorem c4_load_save_roundtrip (s : List Char)
    (h1 : containsCRLF s = false) (h2 : s.getLast? ≠ some '\r') :
    editorRowsToString (editorOpenRows s) = ensureTrailingNL s := by
  induction s with
  | nil => rfl
  | cons c rest ih =>
    have h1' : containsCRLF rest = false := containsCRLF_cons c rest h1
    by_cases hc : c = '\n'
    · subst hc
      have h2' : rest.getLast? ≠ some '\r' := by
        cases rest with
        | nil => simp
        | cons d t => simpa [List.getLast?_cons_cons] using h2
      have ihr := ih h1' h2'
      have hstrip : stripTrailingNLCR ['\n'] = [] := by decide
      simp only [editorOpenRows, getlineSplit, if_pos, List.map_cons, editorRowsToString, hstrip,
        List.nil_append]
      rw [show (getlineSplit rest).map stripTrailingNLCR = editorOpenRows rest from rfl]
      rw [ihr]
      cases rest with
      | nil => rfl
      | cons d t =>
        unfold ensureTrailingNL
        rw [List.getLast?_cons_cons]
        by_cases hl : (d :: t).getLast? = some '\n' <;> simp [hl]
    · cases hsplit : getlineSplit rest with
      | nil =>
        have hrest : rest = [] := by
          by_contra hne
          exact getlineSplit_ne_nil rest hne hsplit
        subst hrest
        have hcr : c ≠ '\r' := by
          intro hcc
          exact h2 (by simp [hcc])
        have hstrip : stripTrailingNLCR [c] = [c] := by
          unfold stripTrailingNLCR
          rw [List.rdropWhile_singleton]
          simp [isNLCR, hc, hcr]
        simp only [editorOpenRows, getlineSplit, if_neg hc, List.map_cons, List.map_nil,
          editorRowsToString, hstrip]
        simp [ensureTrailingNL, hc]
      | cons l ls =>
        have hrestne : rest ≠ [] := by
          intro hr
          subst hr
          simp [getlineSplit] at hsplit
        have h2' : rest.getLast? ≠ some '\r' := by
          cases rest with
          | nil => exact absurd rfl hrestne
          | cons d t => simpa [List.getLast?_cons_cons] using h2
        have ihr := ih h1' h2'
        obtain ⟨hlne, ⟨t, ht⟩, hdl, hdisj⟩ := getlineSplit_head rest l ls hsplit
        have hkey : stripTrailingNLCR l ≠ [] ∨ isNLCR c = false := by
          by_cases hcr : c = '\r'
          · left
            intro hnil
            have hall : ∀ x ∈ l, isNLCR x = true :=
              List.rdropWhile_eq_nil_iff.mp hnil
            by_cases hlast : l.getLast? = some '\n'
            · have hgl : l.getLast hlne = '\n' := by
                have := List.getLast?_eq_getLast l hlne
                rw [this] at hlast
                exact Option.some.inj hlast
              have hldecomp : l.dropLast ++ ['\n'] = l := by
                rw [← hgl]
                exact List.dropLast_append_getLast hlne
              by_cases hdlnil : l.dropLast = []
              · have hleq : l = ['\n'] := by
                  rw [← hldecomp, hdlnil]
                  rfl
                subst hcr
                rw [ht, hleq] at h1
                simp [containsCRLF] at h1
              · have halldl : ∀ x ∈ l.dropLast, x = '\r' := by
                  intro x hx
                  have h1x := hall x (List.dropLast_subset l hx)
                  have h2x := hdl x hx
                  simp [isNLCR] at h1x
                  tauto
                have hcrlf : containsCRLF rest = true := by
                  rw [ht, ← hldecomp, List.append_assoc, List.singleton_append]
                  exact containsCRLF_allCR _ _ hdlnil halldl
                rw [hcrlf] at h1'
                exact absurd h1' (by simp)
            · obtain ⟨hls, hleq⟩ := hdisj.resolve_left hlast
              have hgl : l.getLast hlne ∈ l := List.getLast_mem hlne
              have h1x := hall _ hgl
              have hglne : l.getLast hlne ≠ '\n' := by
                intro hgn
                apply hlast
                rw [List.getLast?_eq_getLast l hlne, hgn]
              have hglr : l.getLast hlne = '\r' := by
                simp [isNLCR] at h1x
                tauto
              apply h2'
              rw [← hleq, List.getLast?_eq_getLast l hlne, hglr]
          · right
            simp [isNLCR, hc, hcr]
        have hstripcons := stripTrailingNLCR_cons c l hkey
        have ihr' : stripTrailingNLCR l ++ '\n' :: editorRowsToString (List.map stripTrailingNLCR ls)
            = ensureTrailingNL rest := by
          simpa [editorOpenRows, hsplit, editorRowsToString] using ihr
        simp only [editorOpenRows, getlineSplit, if_neg hc, hsplit, List.map_cons,
          editorRowsToString, hstripcons]
        rw [List.cons_append, ihr']
        cases rest with
        | nil => exact absurd rfl hrestne
        | cons d t2 =>
          unfold ensureTrailingNL
          rw [List.getLast?_cons_cons]
          by_cases hl2 : (d :: t2).getLast? = some '\n' <;> simp [hl2]

theorem c4_load_save_roundtrip_witness :
    containsCRLF ['a', '\n', 'b'] = false
    ∧ (['a', '\n', 'b'] : List Char).getLast? ≠ some '\r'
    ∧ editorRowsToString (editorOpenRows ['a', '\n', 'b']) = ensureTrailingNL ['a', '\n', 'b'] :=
  ⟨by decide, by decide, c4_load_save_roundtrip ['a', '\n', 'b'] (by decide) (by decide)⟩

/-- C4 fails as stated on carriage-return/line-feed input: the file bytes
"a\r\n" already end in a line feed, yet loading and immediately saving
them produces "a\n", not the original bytes — the carriage return is
stripped on load and never written back. -/
theorem c4_crlf_counterexample :
    editorRowsToString (editorOpenRows ['a', '\r', '\n']) = ['a', '\n']
    ∧ editorRowsToString (editorOpenRows ['a', '\r', '\n']) ≠ ['a', '\r', '\n']
    ∧ (['a', '\r', '\n'] : List Char).getLast? = some '\n' := by
  decide

/-- C7: in the three-line document ["abc", "tab\tstop", "xyz"] with the
cursor at (cy = 2, cx = 0), one incremental-search step for the query "ab"
on a fresh session (last match -1, forward) — triggered by the keystroke
'b' that completed the query — finds the first hit scanning forward from
row 0 and places the cursor at row 0, column 0, remembering the match and
forcing the scroll (`rowoff = numrows = 3`). -/
theorem c7_search_scenario :
    (findCallbackStep ['a', 'b'] 98 ⟨-1, 1, searchDemoState⟩).ed.cy = 0
    ∧ (findCallbackStep ['a', 'b'] 98 ⟨-1, 1, searchDemoState⟩).ed.cx = 0
    ∧ (findCallbackStep ['a', 'b'] 98 ⟨-1, 1, searchDemoState⟩).lm = 0
    ∧ (findCallbackStep ['a', 'b'] 98 ⟨-1, 1, searchDemoState⟩).ed.rowoff = 3
    ∧ (findCallbackStep ['a', 'b'] 98 ⟨-1, 1, searchDemoState⟩).ed.rows
        = searchDemoState.rows := by
  decide

/-- C10: when a scan begins with no remembered match (`last_match = -1`),
the direction is forced forward regardless of the keystroke: LEFT behaves
exactly like RIGHT and UP exactly like DOWN, and the recorded direction is
forward. -/
theorem c10_fresh_search_forced_forward (q : List Char) (f : FindState) (h : f.lm = -1) :
    findCallbackStep q ARROW_LEFT f = findCallbackStep q ARROW_RIGHT f
    ∧ findCallbackStep q ARROW_UP f = findCallbackStep q ARROW_DOWN f
    ∧ (findCallbackStep q ARROW_LEFT f).dir = 1
    ∧ (findCallbackStep q ARROW_UP f).dir = 1 := by
  simp only [findCallbackStep, ARROW_LEFT, ARROW_RIGHT, ARROW_UP, ARROW_DOWN]
  norm_num
  rw [h]
  norm_num
  all_goals
    cases hscan : findScan q f.ed.rows f.ed.rows.length (-1) 1 with
    | none => simp [hscan]
    | some p => simp [hscan]

theorem c10_fresh_search_forced_forward_witness :
    findCallbackStep ['a', 'b'] ARROW_LEFT ⟨-1, 1, searchDemoState⟩
      = findCallbackStep ['a', 'b'] ARROW_RIGHT ⟨-1, 1, searchDemoState⟩
    ∧ findCallbackStep ['a', 'b'] ARROW_UP ⟨-1, 1, searchDemoState⟩
      = findCallbackStep ['a', 'b'] ARROW_DOWN ⟨-1, 1, searchDemoState⟩
    ∧ (findCallbackStep ['a', 'b'] ARROW_LEFT ⟨-1, 1, searchDemoState⟩).dir = 1
    ∧ (findCallbackStep ['a', 'b'] ARROW_UP ⟨-1, 1, searchDemoState⟩).dir = 1 :=
  c10_fresh_search_forced_forward ['a', 'b'] ⟨-1, 1, searchDemoState⟩ rfl

/-- C3 fails as stated: inserting a character while the cursor sits on the
virtual line past the end of an empty document increments `dirty` by two
(one for the row creation, one for the character insert), not by one. -/
theorem c3_dirty_counterexample :
    (editorInsertChar ⟨0, 0, 0, 0, 0, 24, 80, [], 0⟩ 'a').dirty = 2
    ∧ ¬((editorInsertChar ⟨0, 0, 0, 0, 0, 24, 80, [], 0⟩ 'a').dirty
        = (⟨0, 0, 0, 0, 0, 24, 80, [], 0⟩ : EditorState).dirty + 1) := by
  decide

/-- C3 (amended): each row-level mutator (row insert, row delete,
character insert, string append, in-range character delete) increments the
dirty counter by exactly one; `editorInsertNewline` increments it by one;
`editorInsertChar` increments it by one except when typing on the virtual
line past the end (`cy = numrows`), where it increments by two;
`editorDelChar` leaves it unchanged when it is a no-op, increments it by
one for an in-line delete and by two for a line join; and the operations
outside the edit operations do not change it — scrolling, cursor movement
and the search callback preserve `dirty`, while load and a successful save
reset it to 0. -/
theorem c3_dirty_tracking :
    (∀ E i s, i ≤ E.rows.length → (editorInsertRow E i s).dirty = E.dirty + 1)
    ∧ (∀ E i, i < E.rows.length → (editorDelRow E i).dirty = E.dirty + 1)
    ∧ (∀ E i j c, (editorRowInsertChar E i j c).dirty = E.dirty + 1)
    ∧ (∀ E i s, (editorRowAppendString E i s).dirty = E.dirty + 1)
    ∧ (∀ E i j, j < (E.rows.getD i []).length → (editorRowDelChar E i j).dirty = E.dirty + 1)
    ∧ (∀ E c, (editorInsertChar E c).dirty
        = E.dirty + (if E.cy = E.rows.length then 2 else 1))
    ∧ (∀ E, E.cx = 0 → E.cy ≤ E.rows.length → (editorInsertNewline E).dirty = E.dirty + 1)
    ∧ (∀ E, 0 < E.cx → E.cy < E.rows.length → (editorInsertNewline E).dirty = E.dirty + 1)
    ∧ (∀ E, E.cy = E.rows.length ∨ (E.cx = 0 ∧ E.cy = 0) → (editorDelChar E).dirty = E.dirty)
    ∧ (∀ E, 0 < E.cx → E.cy < E.rows.length → E.cx ≤ (E.rows.getD E.cy []).length →
        (editorDelChar E).dirty = E.dirty + 1)
    ∧ (∀ E, E.cx = 0 → 0 < E.cy → E.cy < E.rows.length → (editorDelChar E).dirty = E.dirty + 2)
    ∧ (∀ E, (editorScroll E).dirty = E.dirty)
    ∧ (∀ E k, (editorMoveCursor E k).dirty = E.dirty)
    ∧ (∀ q k f, (findCallbackStep q k f).ed.dirty = f.ed.dirty)
    ∧ (∀ sr sc s, (editorOpenState sr sc s).dirty = 0)
    ∧ (∀ E, (editorSave E).1.dirty = 0) := by
  refine ⟨?_, ?_, ?_, ?_, ?_, ?_, ?_, ?_, ?_, ?_, ?_, ?_, ?_, ?_, ?_, ?_⟩
  · intro E i s h
    simp [editorInsertRow, show ¬(i > E.rows.length) from by omega]
  · intro E i h
    simp [editorDelRow, show ¬(i ≥ E.rows.length) from by omega]
  · intro E i j c
    rfl
  · intro E i s
    rfl
  · intro E i j h
    unfold editorRowDelChar
    dsimp only
    rw [if_neg (show ¬j ≥ (E.rows.getD i []).length from by omega)]
  · intro E c
    by_cases h : E.cy = E.rows.length
    · simp [editorInsertChar, editorInsertRow, editorRowInsertChar, h]
    · simp [editorInsertChar, editorRowInsertChar, h]
  · intro E h0 hle
    simp [editorInsertNewline, h0, editorInsertRow, show ¬(E.cy > E.rows.length) from by omega]
  · intro E h0 hlt
    simp [editorInsertNewline, show ¬(E.cx = 0) from by omega, editorInsertRow,
      show ¬(E.cy + 1 > E.rows.length) from by omega]
  · intro E h
    rcases h with h | ⟨h1, h2⟩
    · simp [editorDelChar, h]
    · by_cases hcy : E.cy = E.rows.length
      · simp [editorDelChar, hcy]
      · simp [editorDelChar, hcy, h1, h2]
  · intro E hcx hcy hlen
    simp only [editorDelChar, if_neg (by omega : ¬E.cy = E.rows.length)]
    rw [if_neg (by omega : ¬(E.cx = 0 ∧ E.cy = 0)), if_pos hcx]
    dsimp only
    unfold editorRowDelChar
    dsimp only
    rw [if_neg (show ¬E.cx - 1 ≥ (E.rows.getD E.cy []).length from by omega)]
  · intro E hcx hcy hlt
    simp only [editorDelChar, if_neg (by omega : ¬E.cy = E.rows.length)]
    rw [if_neg (by omega : ¬(E.cx = 0 ∧ E.cy = 0))]
    rw [if_neg (by omega : ¬E.cx > 0)]
    dsimp only
    unfold editorRowAppendString editorDelRow
    dsimp only
    rw [List.length_set]
    rw [if_neg (show ¬E.cy ≥ E.rows.length from by omega)]
  · intro E
    rfl
  · intro E k
    unfold editorMoveCursor
    dsimp only
    split_ifs <;> rfl
  · intro q k f
    unfold findCallbackStep
    dsimp only
    split
    · rfl
    · split <;> rfl
  · intro sr sc s
    rfl
  · intro E
    rfl

theorem c3_dirty_tracking_witness :
    (editorInsertRow ⟨0, 0, 0, 0, 0, 24, 80, [['a']], 5⟩ 1 ['b']).dirty = 6
    ∧ (editorDelChar ⟨0, 1, 0, 0, 0, 24, 80, [['a'], ['b']], 5⟩).dirty = 7 :=
  ⟨c3_dirty_tracking.1 ⟨0, 0, 0, 0, 0, 24, 80, [['a']], 5⟩ 1 ['b'] (by decide),
   c3_dirty_tracking.2.2.2.2.2.2.2.2.2.2.1 ⟨0, 1, 0, 0, 0, 24, 80, [['a'], ['b']], 5⟩
     rfl (by decide) (by decide)⟩

/-- C6: editorDelChar is a no-op at document start (`cx = 0 ∧ cy = 0`) and
past the document end (`cy = numrows`); with `cx > 0` it removes the byte
at `cx - 1` of the current line, shifts the remainder left and decrements
the cursor column; with `cx = 0` on a later line it appends the current
line's full raw content to the previous line, deletes the current line and
moves the cursor to the join point (previous line's former length, row
above). -/
theorem c6_delChar_spec :
    (∀ E, E.cy = E.rows.length → editorDelChar E = E)
    ∧ (∀ E, E.cx = 0 → E.cy = 0 → editorDelChar E = E)
    ∧ (∀ E, 0 < E.cx → E.cy < E.rows.length → E.cx ≤ (E.rows.getD E.cy []).length →
        (editorDelChar E).rows
          = E.rows.take E.cy
            ++ ((E.rows.getD E.cy []).take (E.cx - 1) ++ (E.rows.getD E.cy []).drop E.cx)
            :: E.rows.drop (E.cy + 1)
        ∧ (editorDelChar E).cx = E.cx - 1
        ∧ (editorDelChar E).cy = E.cy
        ∧ (editorDelChar E).dirty = E.dirty + 1)
    ∧ (∀ E, E.cx = 0 → 0 < E.cy → E.cy < E.rows.length →
        (editorDelChar E).rows
          = E.rows.take (E.cy - 1)
            ++ (E.rows.getD (E.cy - 1) [] ++ E.rows.getD E.cy [])
            :: E.rows.drop (E.cy + 1)
        ∧ (editorDelChar E).cx = (E.rows.getD (E.cy - 1) []).length
        ∧ (editorDelChar E).cy = E.cy - 1
        ∧ (editorDelChar E).dirty = E.dirty + 2) := by
  refine ⟨?_, ?_, ?_, ?_⟩
  · intro E h
    unfold editorDelChar
    rw [if_pos h]
  · intro E h0 h1
    unfold editorDelChar
    by_cases hlen : E.cy = E.rows.length
    · rw [if_pos hlen]
    · rw [if_neg hlen, if_pos ⟨h0, h1⟩]
  · intro E hcx hcy hlen
    have hstep : editorDelChar E
        = { editorRowDelChar E E.cy (E.cx - 1) with cx := E.cx - 1 } := by
      unfold editorDelChar
      rw [if_neg (by omega : ¬E.cy = E.rows.length),
        if_neg (by omega : ¬(E.cx = 0 ∧ E.cy = 0)), if_pos hcx]
    have hact : editorRowDelChar E E.cy (E.cx - 1)
        = { E with rows := E.rows.set E.cy ((E.rows.getD E.cy []).take (E.cx - 1) ++ (E.rows.getD E.cy []).drop E.cx), dirty := E.dirty + 1 } := by
      unfold editorRowDelChar
      dsimp only
      rw [if_neg (show ¬E.cx - 1 ≥ (E.rows.getD E.cy []).length from by omega)]
      rw [show E.cx - 1 + 1 = E.cx from by omega]
    rw [hstep, hact]
    refine ⟨?_, rfl, rfl, rfl⟩
    exact List.set_eq_take_cons_drop _ hcy
  · intro E hcx hcy hlt
    have hstep : editorDelChar E
        = { editorDelRow
              (editorRowAppendString { E with cx := (E.rows.getD (E.cy - 1) []).length }
                (E.cy - 1) (E.rows.getD E.cy []))
              E.cy
            with cy := E.cy - 1 } := by
      unfold editorDelChar
      rw [if_neg (by omega : ¬E.cy = E.rows.length),
        if_neg (by omega : ¬(E.cx = 0 ∧ E.cy = 0)),
        if_neg (by omega : ¬E.cx > 0)]
    have happ : editorRowAppendString { E with cx := (E.rows.getD (E.cy - 1) []).length }
          (E.cy - 1) (E.rows.getD E.cy [])
        = { E with cx := (E.rows.getD (E.cy - 1) []).length, rows := E.rows.set (E.cy - 1) (E.rows.getD (E.cy - 1) [] ++ E.rows.getD E.cy []), dirty := E.dirty + 1 } := by
      unfold editorRowAppendString
      rfl
    rw [hstep, happ]
    have hdel : editorDelRow
          { E with cx := (E.rows.getD (E.cy - 1) []).length, rows := E.rows.set (E.cy - 1) (E.rows.getD (E.cy - 1) [] ++ E.rows.getD E.cy []), dirty := E.dirty + 1 }
          E.cy
        = { E with cx := (E.rows.getD (E.cy - 1) []).length, rows := (E.rows.set (E.cy - 1) (E.rows.getD (E.cy - 1) [] ++ E.rows.getD E.cy [])).eraseIdx E.cy, dirty := E.dirty + 2 } := by
      unfold editorDelRow
      dsimp only
      rw [List.length_set]
      rw [if_neg (show ¬E.cy ≥ E.rows.length from by omega)]
    rw [hdel]
    refine ⟨?_, rfl, rfl, rfl⟩
    dsimp only
    have hA : (E.rows.take (E.cy - 1)).length = E.cy - 1 := by
      rw [List.length_take]
      omega
    rw [List.set_eq_take_cons_drop _ (show E.cy - 1 < E.rows.length from by omega)]
    rw [List.eraseIdx_eq_take_drop_succ]
    rw [List.take_append_eq_append_take, List.drop_append_eq_append_drop]
    rw [hA]
    rw [show (E.rows.take (E.cy - 1)).take E.cy = E.rows.take (E.cy - 1) from
      List.take_of_length_le (by rw [hA]; omega)]
    rw [show E.cy - (E.cy - 1) = 1 from by omega]
    rw [show (E.rows.take (E.cy - 1)).drop (E.cy + 1) = [] from
      List.drop_eq_nil_of_le (by rw [hA]; omega)]
    rw [show E.cy + 1 - (E.cy - 1) = 2 from by omega]
    rw [show E.cy - 1 + 1 = E.cy from by omega]
    simp [List.drop_drop]

theorem c6_delChar_spec_witness :
    (editorDelChar ⟨1, 0, 0, 0, 0, 24, 80, [['a', 'b']], 0⟩).rows = [['b']]
    ∧ (editorDelChar ⟨1, 0, 0, 0, 0, 24, 80, [['a', 'b']], 0⟩).cx = 0
    ∧ (editorDelChar ⟨1, 0, 0, 0, 0, 24, 80, [['a', 'b']], 0⟩).cy = 0
    ∧ (editorDelChar ⟨1, 0, 0, 0, 0, 24, 80, [['a', 'b']], 0⟩).dirty = 1 :=
  c6_delChar_spec.2.2.1 ⟨1, 0, 0, 0, 0, 24, 80, [['a', 'b']], 0⟩
    (by decide) (by decide) (by decide)

/-- C9: the key decoder is total and never errors: a non-escape first byte
is returned verbatim; the recognized escape sequences map to the named
keys (bracket then A/B/C/D/H/F, bracket digit tilde with 1/7 HOME, 3 DEL,
4/8 END, 5 PAGE_UP, 6 PAGE_DOWN, and O then H/F); and every other escape
sequence — including any truncated by a read timeout (a short `pending`
list) — decodes to the escape key 27. -/
theorem c9_decoder_total :
    (∀ c pending, c ≠ 27 → editorReadKey c pending = c)
    ∧ (∀ rest, editorReadKey 27 (91 :: 65 :: rest) = ARROW_UP)
    ∧ (∀ rest, editorReadKey 27 (91 :: 66 :: rest) = ARROW_DOWN)
    ∧ (∀ rest, editorReadKey 27 (91 :: 67 :: rest) = ARROW_RIGHT)
    ∧ (∀ rest, editorReadKey 27 (91 :: 68 :: rest) = ARROW_LEFT)
    ∧ (∀ rest, editorReadKey 27 (91 :: 72 :: rest) = HOME_KEY)
    ∧ (∀ rest, editorReadKey 27 (91 :: 70 :: rest) = END_KEY)
    ∧ (∀ rest, editorReadKey 27 (91 :: 49 :: 126 :: rest) = HOME_KEY)
    ∧ (∀ rest, editorReadKey 27 (91 :: 51 :: 126 :: rest) = DEL_KEY)
    ∧ (∀ rest, editorReadKey 27 (91 :: 52 :: 126 :: rest) = END_KEY)
    ∧ (∀ rest, editorReadKey 27 (91 :: 53 :: 126 :: rest) = PAGE_UP)
    ∧ (∀ rest, editorReadKey 27 (91 :: 54 :: 126 :: rest) = PAGE_DOWN)
    ∧ (∀ rest, editorReadKey 27 (91 :: 55 :: 126 :: rest) = HOME_KEY)
    ∧ (∀ rest, editorReadKey 27 (91 :: 56 :: 126 :: rest) = END_KEY)
    ∧ (∀ rest, editorReadKey 27 (79 :: 72 :: rest) = HOME_KEY)
    ∧ (∀ rest, editorReadKey 27 (79 :: 70 :: rest) = END_KEY)
    ∧ (∀ pending, recognizedSeq pending = false → editorReadKey 27 pending = 27) := by
  refine ⟨?_, fun _ => rfl, fun _ => rfl, fun _ => rfl, fun _ => rfl, fun _ => rfl,
    fun _ => rfl, fun _ => rfl, fun _ => rfl, fun _ => rfl, fun _ => rfl, fun _ => rfl,
    fun _ => rfl, fun _ => rfl, fun _ => rfl, fun _ => rfl, ?_⟩
  · intro c pending h
    unfold editorReadKey
    rw [if_neg h]
  · intro pending h
    cases pending with
    | nil => rfl
    | cons a rest =>
      cases rest with
      | nil => rfl
      | cons b t =>
        by_cases h0 : a = 91
        · subst h0
          by_cases hd : 48 ≤ b ∧ b ≤ 57
          · cases t with
            | nil => simp [editorReadKey, hd]
            | cons s2 t2 =>
              by_cases h126 : s2 = 126
              · subst h126
                simp [recognizedSeq, hd] at h
                obtain ⟨⟨⟨⟨⟨⟨h49, h51⟩, h52⟩, h53⟩, h54⟩, h55⟩, h56⟩ := h
                simp [editorReadKey, hd, h49, h51, h52, h53, h54, h55, h56]
              · simp [editorReadKey, hd, h126]
          · simp [recognizedSeq, hd] at h
            obtain ⟨⟨⟨⟨⟨h65, h66⟩, h67⟩, h68⟩, h72⟩, h70⟩ := h
            simp [editorReadKey, hd, h65, h66, h67, h68, h72, h70]
        · by_cases h79 : a = 79
          · subst h79
            simp [recognizedSeq] at h
            simp [editorReadKey, h.1, h.2]
          · simp [editorReadKey, h0, h79]

theorem c9_decoder_total_witness :
    editorReadKey 97 [] = 97 ∧ editorReadKey 27 [91, 90] = 27 :=
  ⟨c9_decoder_total.1 97 [] (by decide),
   c9_decoder_total.2.2.2.2.2.2.2.2.2.2.2.2.2.2.2.2 [91, 90] (by decide)⟩

theorem findCallbackStep_frame (q : List Char) (k : Nat) (f : FindState) :
    (findCallbackStep q k f).ed.rows = f.ed.rows
    ∧ (findCallbackStep q k f).ed.dirty = f.ed.dirty := by
  unfold findCallbackStep
  dsimp only
  split
  · exact ⟨rfl, rfl⟩
  · split <;> exact ⟨rfl, rfl⟩

theorem editorPrompt_frame (keys : List Nat) (buf : List Char) (f : FindState) :
    (editorPrompt findCallbackStep keys buf f).2.ed.rows = f.ed.rows
    ∧ (editorPrompt findCallbackStep keys buf f).2.ed.dirty = f.ed.dirty := by
  induction keys generalizing buf f with
  | nil => exact ⟨rfl, rfl⟩
  | cons k ks ih =>
    unfold editorPrompt
    dsimp only
    split_ifs
    all_goals
      try exact ⟨(ih _ _).1.trans (findCallbackStep_frame _ _ _).1,
        (ih _ _).2.trans (findCallbackStep_frame _ _ _).2⟩
    all_goals
      exact ⟨(findCallbackStep_frame _ _ _).1, (findCallbackStep_frame _ _ _).2⟩

/-- C8: a search session that ends in cancellation (escape) leaves the
cursor position and the viewport offsets exactly as they were saved when
the session began, no matter how many matches were visited meanwhile, and
the document content (and dirty counter) is untouched. -/
theorem c8_cancel_restores (keys : List Nat) (E : EditorState)
    (h : (editorPrompt findCallbackStep keys [] ⟨-1, 1, E⟩).1 = PromptResult.cancelled) :
    (editorFind keys E).cx = E.cx
    ∧ (editorFind keys E).cy = E.cy
    ∧ (editorFind keys E).coloff = E.coloff
    ∧ (editorFind keys E).rowoff = E.rowoff
    ∧ (editorFind keys E).rows = E.rows
    ∧ (editorFind keys E).dirty = E.dirty := by
  unfold editorFind
  dsimp only
  rw [h]
  exact ⟨rfl, rfl, rfl, rfl,
    (editorPrompt_frame keys [] ⟨-1, 1, E⟩).1,
    (editorPrompt_frame keys [] ⟨-1, 1, E⟩).2⟩

theorem c8_cancel_restores_witness :
    (editorPrompt findCallbackStep [27, 27] [] ⟨-1, 1, searchDemoState⟩).1
      = PromptResult.cancelled
    ∧ (editorFind [27, 27] searchDemoState).cx = searchDemoState.cx
    ∧ (editorFind [27, 27] searchDemoState).cy = searchDemoState.cy
    ∧ (editorFind [27, 27] searchDemoState).coloff = searchDemoState.coloff
    ∧ (editorFind [27, 27] searchDemoState).rowoff = searchDemoState.rowoff
    ∧ (editorFind [27, 27] searchDemoState).rows = searchDemoState.rows
    ∧ (editorFind [27, 27] searchDemoState).dirty = searchDemoState.dirty :=
  ⟨by decide,
   (c8_cancel_restores [27, 27] searchDemoState (by decide)).1,
   (c8_cancel_restores [27, 27] searchDemoState (by decide)).2.1,
   (c8_cancel_restores [27, 27] searchDemoState (by decide)).2.2.1,
   (c8_cancel_restores [27, 27] searchDemoState (by decide)).2.2.2.1,
   (c8_cancel_restores [27, 27] searchDemoState (by decide)).2.2.2.2.1,
   (c8_cancel_restores [27, 27] searchDemoState (by decide)).2.2.2.2.2⟩
